import Mathlib

/-!
Verification of the meta-analysis engine in `neurosynth/analysis/meta.py`.

The numeric model: numpy floating-point values are embedded as `Val`, a
rational number extended with `+inf`, `-inf` and `NaN`, with the IEEE-754
behaviour of the arithmetic operations the source uses (in particular
`0/0 = NaN`, `x/0 = ±inf` for `x ≠ 0`, and `NaN` propagation; any
comparison against `NaN` is false).  Rational arithmetic stands in for
binary floating point: every claim under audit is about the structure of
the computation (which divisions happen, which entries are zeroed, which
images depend on which parameters), not about rounding.

The external statistical collaborators imported by the source
(`stats.one_way`, `stats.two_way`, `stats.fdr`,
`imageutils.threshold_img`, `scipy.stats.norm.ppf`) are not part of the
analysed file; they are passed in as an abstract record of functions
(`StatFns`), mirroring how `MetaAnalysis.__init__` merely calls them.
-/

/-- IEEE-style extended value: finite rational, infinities, or NaN. -/
inductive Val where
  | num (q : ℚ)
  | pinf
  | ninf
  | nan
deriving DecidableEq, Repr

namespace Val

/-- IEEE addition on `Val`. -/
def add : Val → Val → Val
  | nan, _ => nan
  | _, nan => nan
  | num a, num b => num (a + b)
  | pinf, ninf => nan
  | ninf, pinf => nan
  | pinf, _ => pinf
  | _, pinf => pinf
  | ninf, _ => ninf
  | _, ninf => ninf

/-- IEEE subtraction on `Val`. -/
def sub : Val → Val → Val
  | nan, _ => nan
  | _, nan => nan
  | num a, num b => num (a - b)
  | pinf, pinf => nan
  | ninf, ninf => nan
  | pinf, _ => pinf
  | ninf, _ => ninf
  | _, pinf => ninf
  | _, ninf => pinf

/-- IEEE multiplication on `Val` (`0 * inf = NaN`). -/
def mul : Val → Val → Val
  | nan, _ => nan
  | _, nan => nan
  | num a, num b => num (a * b)
  | num a, pinf => if 0 < a then pinf else if a < 0 then ninf else nan
  | pinf, num a => if 0 < a then pinf else if a < 0 then ninf else nan
  | num a, ninf => if 0 < a then ninf else if a < 0 then pinf else nan
  | ninf, num a => if 0 < a then ninf else if a < 0 then pinf else nan
  | pinf, pinf => pinf
  | ninf, ninf => pinf
  | pinf, ninf => ninf
  | ninf, pinf => ninf

/-- IEEE division on `Val` (`0/0 = NaN`, `x/0 = ±inf` for finite `x ≠ 0`,
as numpy produces for array division by a zero scalar). -/
def div : Val → Val → Val
  | nan, _ => nan
  | _, nan => nan
  | num a, num b =>
      if b ≠ 0 then num (a / b)
      else if 0 < a then pinf else if a < 0 then ninf else nan
  | num _, pinf => num 0
  | num _, ninf => num 0
  | pinf, num b => if 0 ≤ b then pinf else ninf
  | ninf, num b => if 0 ≤ b then ninf else pinf
  | pinf, _ => nan
  | ninf, _ => nan

/-- `np.abs`. -/
def abs : Val → Val
  | num a => num |a|
  | pinf => pinf
  | ninf => pinf
  | nan => nan

/-- `np.sign` (NaN maps to NaN). -/
def sign : Val → Val
  | num a => num (if 0 < a then 1 else if a < 0 then -1 else 0)
  | pinf => num 1
  | ninf => num (-1)
  | nan => nan

/-- Strict `<` comparison as on IEEE floats: any comparison with NaN is
false. -/
def lt : Val → Val → Bool
  | num a, num b => a < b
  | num _, pinf => true
  | ninf, num _ => true
  | ninf, pinf => true
  | _, _ => false

/-- `np.isinf`. -/
def isInf : Val → Bool
  | pinf => true
  | ninf => true
  | _ => false

/-- Finiteness test (the value is an actual rational). -/
def isNum : Val → Bool
  | num _ => true
  | _ => false

end Val

/-- A Python numeric that is either an `int` or a `float`; the source
dispatches on `isinstance(min_studies, int)`. -/
inductive PyNum where
  | pint (n : ℤ)
  | pfloat (q : ℚ)
deriving DecidableEq, Repr

/-- The image-dictionary keys assembled at the end of
`MetaAnalysis.__init__`.  String formatting of the prior
(`'pAgF_given_pF=%0.2f' % prior`) and of `q` (`'pAgF_z_FDR_%s' % q`) is
embedded as the key constructor carrying the numeric value. -/
inductive ImgKey where
  | pA
  | pAgF
  | pFgA
  | pAgF_prior (prior : ℚ)
  | pFgA_prior (prior : ℚ)
  | consistency_z
  | specificity_z
  | pAgF_z_FDR (q : ℚ)
  | pFgA_z_FDR (q : ℚ)
deriving DecidableEq, Repr

/-- `dataset.image_table`: the ordered study-ID list and the dense
voxel x study activation matrix (`mt.ids`, `mt.data`); each row of
`data` is one voxel. -/
structure ImageTable where
  ids : List String
  data : List (List Val)

/-- The external statistical collaborators called by
`MetaAnalysis.__init__` but defined outside the analysed file:
`stats.one_way`, `stats.two_way`, `stats.fdr`,
`imageutils.threshold_img` (with `mask_out='above'` fixed by the call
site) and `scipy.stats.norm.ppf`. -/
structure StatFns where
  one_way : List Val → ℕ → List Val
  two_way : List ((Val × Val) × (Val × Val)) → List Val
  fdr : List Val → ℚ → Val
  threshold_img : List Val → Val → List Val → List Val
  ppf : Val → Val

/-- The slice of the external `Dataset` collaborator that
`analyze_features` consumes: `dataset.image_table`,
`dataset.masker.n_vox_in_mask` and `dataset.get_studies`. -/
structure Dataset where
  image_table : ImageTable
  n_vox_in_mask : ℕ
  get_studies : String → ℚ → List String

/-- `self.selected_id_indices = np.in1d(mt.ids, ids)`. -/
def selMask (mtids ids : List String) : List Bool :=
  mtids.map (fun s => decide (s ∈ ids))

/-- `unselected_id_indices`: complement of the selected mask when
`ids2` is `None`, else `np.in1d(mt.ids, ids2)`. -/
def unselMask (mtids ids : List String) : Option (List String) → List Bool
  | none => (selMask mtids ids).map not
  | some l => mtids.map (fun s => decide (s ∈ l))

/-- `n_selected = len(self.selected_ids)` where
`selected_ids = list(set(mt.ids) & set(ids))`. -/
def nSelected (mtids ids : List String) : ℕ :=
  (mtids.toFinset ∩ ids.toFinset).card

/-- `n_unselected = np.sum(unselected_id_indices)`. -/
def nUnselected (mtids ids : List String) (ids2 : Option (List String)) : ℕ :=
  (unselMask mtids ids ids2).count true

/-- `n_mappables = n_selected + n_unselected`. -/
def nMappables (mtids ids : List String) (ids2 : Option (List String)) : ℕ :=
  nSelected mtids ids + nUnselected mtids ids ids2

/-- `row . mask`: one entry of `mt.data.dot(mask)`, with the boolean
mask acting as a 0/1 vector. -/
def dotB (row : List Val) (mask : List Bool) : Val :=
  (List.zipWith (fun x b => x.mul (Val.num (if b then 1 else 0))) row mask).foldr
    Val.add (Val.num 0)

/-- One entry of `mt.data.sum(axis=1)`. -/
def rowSum (row : List Val) : Val :=
  row.foldr Val.add (Val.num 0)

/-- `n_selected_active_voxels = mt.data.dot(self.selected_id_indices)`. -/
def nsaList (mt : ImageTable) (ids : List String) : List Val :=
  mt.data.map (fun row => dotB row (selMask mt.ids ids))

/-- `n_unselected_active_voxels = mt.data.dot(unselected_id_indices)`. -/
def nuaList (mt : ImageTable) (ids : List String)
    (ids2 : Option (List String)) : List Val :=
  mt.data.map (fun row => dotB row (unselMask mt.ids ids ids2))

/-- `pF = (n_selected * 1.0) / n_mappables`. -/
def pFVal (mtids ids : List String) (ids2 : Option (List String)) : Val :=
  (Val.num (nSelected mtids ids : ℚ)).div (Val.num (nMappables mtids ids ids2 : ℚ))

/-- `pA = (mt.data.sum(axis=1) * 1.0) / n_mappables`. -/
def pAList (mt : ImageTable) (ids : List String)
    (ids2 : Option (List String)) : List Val :=
  mt.data.map (fun row =>
    (rowSum row).div (Val.num (nMappables mt.ids ids ids2 : ℚ)))

/-- `pAgF = n_selected_active_voxels * 1.0 / n_selected`. -/
def pAgFList (mt : ImageTable) (ids : List String) : List Val :=
  (nsaList mt ids).map (fun x => x.div (Val.num (nSelected mt.ids ids : ℚ)))

/-- `pAgU = n_unselected_active_voxels * 1.0 / n_unselected`. -/
def pAgUList (mt : ImageTable) (ids : List String)
    (ids2 : Option (List String)) : List Val :=
  (nuaList mt ids ids2).map
    (fun x => x.div (Val.num (nUnselected mt.ids ids ids2 : ℚ)))

/-- `pFgA = pAgF * pF / pA`. -/
def pFgAList (mt : ImageTable) (ids : List String)
    (ids2 : Option (List String)) : List Val :=
  List.zipWith (fun f a => (f.mul (pFVal mt.ids ids ids2)).div a)
    (pAgFList mt ids) (pAList mt ids ids2)

/-- `pAgF_prior = prior * pAgF + (1 - prior) * pAgU`. -/
def pAgFPriorList (prior : ℚ) (mt : ImageTable) (ids : List String)
    (ids2 : Option (List String)) : List Val :=
  List.zipWith
    (fun f u => ((Val.num prior).mul f).add ((Val.num (1 - prior)).mul u))
    (pAgFList mt ids) (pAgUList mt ids ids2)

/-- `pFgA_prior = pAgF * prior / pAgF_prior`. -/
def pFgAPriorList (prior : ℚ) (mt : ImageTable) (ids : List String)
    (ids2 : Option (List String)) : List Val :=
  List.zipWith (fun f d => (f.mul (Val.num prior)).div d)
    (pAgFList mt ids) (pAgFPriorList prior mt ids ids2)

/-- The clamp floor `1e-240` of the source, as an exact rational. -/
def epsQ : ℚ := 1 / 10 ^ 240

/-- One entry of `p_vals[p_vals < 1e-240] = 1e-240`. -/
def clampP (x : Val) : Val :=
  if Val.lt x (Val.num epsQ) then Val.num epsQ else x

/-- The nested function `p_to_z(p, sign)` of `MetaAnalysis.__init__`,
line for line: halve `p`, clamp entries below `1e-240` up to `1e-240`,
take `abs(ppf(p)) * sign`, then overwrite infinite entries with
`ppf(1e-240) * -1` (note: without the sign). -/
def p_to_z (ppf : Val → Val) (p sgn : List Val) : List Val :=
  let p1 := p.map (fun x => x.div (Val.num 2))
  let p2 := p1.map clampP
  let z := List.zipWith (fun x s => (ppf x).abs.mul s) p2 sgn
  z.map (fun x => if x.isInf then (ppf (Val.num epsQ)).mul (Val.num (-1)) else x)

/-- `p_vals = stats.one_way(np.squeeze(nsa), n_selected)` followed by
the in-place clamp `p_vals[p_vals < 1e-240] = 1e-240`. -/
def pv1List (sf : StatFns) (mt : ImageTable) (ids : List String) : List Val :=
  (sf.one_way (nsaList mt ids) (nSelected mt.ids ids)).map clampP

/-- `z_sign = np.sign(nsa - np.mean(nsa)).ravel()` for the one-way
test (`np.mean` is sum over length; empty input gives `0/0 = NaN`). -/
def sgn1List (mt : ImageTable) (ids : List String) : List Val :=
  let nsa := nsaList mt ids
  let m := (nsa.foldr Val.add (Val.num 0)).div (Val.num (nsa.length : ℚ))
  nsa.map (fun x => (x.sub m).sign)

/-- `pAgF_z = p_to_z(p_vals, z_sign)` (consistency image). -/
def z1List (sf : StatFns) (mt : ImageTable) (ids : List String) : List Val :=
  p_to_z sf.ppf (pv1List sf mt ids) (sgn1List mt ids)

/-- `pAgF_z_FDR = imageutils.threshold_img(pAgF_z, stats.fdr(p_vals, q),
p_vals, mask_out='above')`. -/
def z1FDRList (sf : StatFns) (mt : ImageTable) (ids : List String)
    (q : ℚ) : List Val :=
  sf.threshold_img (z1List sf mt ids) (sf.fdr (pv1List sf mt ids) q)
    (pv1List sf mt ids)

/-- The per-voxel 2x2 tables
`np.squeeze(np.array([[nsa, nua], [n_selected - nsa, n_unselected - nua]]).T)`;
after numpy's transpose, voxel `v` holds
`[[nsa v, n_selected - nsa v], [nua v, n_unselected - nua v]]`. -/
def cellsList (mt : ImageTable) (ids : List String)
    (ids2 : Option (List String)) : List ((Val × Val) × (Val × Val)) :=
  List.zipWith
    (fun a u =>
      ((a, (Val.num (nSelected mt.ids ids : ℚ)).sub a),
       (u, (Val.num (nUnselected mt.ids ids ids2 : ℚ)).sub u)))
    (nsaList mt ids) (nuaList mt ids ids2)

/-- `p_vals = stats.two_way(cells)` followed by the in-place clamp. -/
def pv2List (sf : StatFns) (mt : ImageTable) (ids : List String)
    (ids2 : Option (List String)) : List Val :=
  (sf.two_way (cellsList mt ids ids2)).map clampP

/-- `z_sign = np.sign(pAgF - pAgU).ravel()` for the two-way test. -/
def sgn2List (mt : ImageTable) (ids : List String)
    (ids2 : Option (List String)) : List Val :=
  List.zipWith (fun f u => (f.sub u).sign) (pAgFList mt ids) (pAgUList mt ids ids2)

/-- `pFgA_z = p_to_z(p_vals, z_sign)` (specificity image). -/
def z2List (sf : StatFns) (mt : ImageTable) (ids : List String)
    (ids2 : Option (List String)) : List Val :=
  p_to_z sf.ppf (pv2List sf mt ids ids2) (sgn2List mt ids ids2)

/-- `pFgA_z_FDR = imageutils.threshold_img(pFgA_z, stats.fdr(p_vals, q),
p_vals, mask_out='above')`. -/
def z2FDRList (sf : StatFns) (mt : ImageTable) (ids : List String)
    (ids2 : Option (List String)) (q : ℚ) : List Val :=
  sf.threshold_img (z2List sf mt ids ids2)
    (sf.fdr (pv2List sf mt ids ids2) q) (pv2List sf mt ids ids2)

/-- The `self.images` dictionary exactly as assembled at lines 177-187
of the source, before the min-studies masking step. -/
def metaImagesRaw (sf : StatFns) (mt : ImageTable) (ids : List String)
    (ids2 : Option (List String)) (q prior : ℚ) : List (ImgKey × List Val) :=
  [(ImgKey.pA, pAList mt ids ids2),
   (ImgKey.pAgF, pAgFList mt ids),
   (ImgKey.pFgA, pFgAList mt ids ids2),
   (ImgKey.pAgF_prior prior, pAgFPriorList prior mt ids ids2),
   (ImgKey.pFgA_prior prior, pFgAPriorList prior mt ids ids2),
   (ImgKey.consistency_z, z1List sf mt ids),
   (ImgKey.specificity_z, z2List sf mt ids ids2),
   (ImgKey.pAgF_z_FDR q, z1FDRList sf mt ids q),
   (ImgKey.pFgA_z_FDR q, z2FDRList sf mt ids ids2 q)]

/-- Python dict lookup on the image dictionary. -/
def imgLookup : List (ImgKey × List Val) → ImgKey → Option (List Val)
  | [], _ => none
  | (k', v) :: rest, k => if k = k' then some v else imgLookup rest k

/-- The Python test `min_studies > 0` guarding the masking block. -/
def msPos : PyNum → Bool
  | PyNum.pint n => decide (0 < n)
  | PyNum.pfloat q => decide (0 < q)

/-- The threshold used in `np.where(pA < min_studies)`: an `int` is
first recalculated as a proportion (`float(min_studies) / n_mappables`),
a `float` is used as is. -/
def msThresh (nmap : ℕ) : PyNum → ℚ
  | PyNum.pint n => (n : ℚ) / (nmap : ℚ)
  | PyNum.pfloat q => q

/-- `img[vox_to_exclude] = 0`: zero the entries of `img` at the indices
(counted from `i`) selected by `excl`. -/
def zeroFrom (excl : ℕ → Bool) : ℕ → List Val → List Val
  | _, [] => []
  | i, x :: xs => (if excl i then Val.num 0 else x) :: zeroFrom excl (i + 1) xs

/-- `vox_to_exclude = np.where(pA < min_studies)[0]` as a predicate on
voxel indices: the `pA` array is read from the dictionary (the same
array as the constructor's local `pA` variable), and an index beyond
its length is never excluded. -/
def exclPred (ms : PyNum) (nmap : ℕ) (imgs : List (ImgKey × List Val))
    (v : ℕ) : Bool :=
  Val.lt (((imgLookup imgs ImgKey.pA).getD []).getD v Val.nan)
    (Val.num (msThresh nmap ms))

/-- The min-studies masking block (lines 189-197): when
`min_studies > 0`, compute the exclusion set `vox_to_exclude` from the
dictionary's `pA` image and the (proportion-converted) threshold, and
zero those indices in every image of the dictionary; otherwise leave
the dictionary untouched. -/
def maskImages (ms : PyNum) (nmap : ℕ)
    (imgs : List (ImgKey × List Val)) : List (ImgKey × List Val) :=
  if msPos ms then
    imgs.map (fun kv => (kv.1, zeroFrom (exclPred ms nmap imgs) 0 kv.2))
  else imgs

/-- `MetaAnalysis(dataset, ids, ids2, q, prior, min_studies).images`:
the full constructor pipeline, ending with the masking step. -/
def MetaAnalysis.images (sf : StatFns) (mt : ImageTable) (ids : List String)
    (ids2 : Option (List String)) (q prior : ℚ) (ms : PyNum) :
    List (ImgKey × List Val) :=
  maskImages ms (nMappables mt.ids ids ids2) (metaImagesRaw sf mt ids ids2 q prior)

/-- The `output_dir is None` branch of `analyze_features`: one
meta-analysis per feature (with `ids = dataset.get_studies(f, threshold)`
and the constructor defaults `ids2=None`, `prior=0.5`, `min_studies=1`),
collecting column `i` = `ma.images[image_type]` in the order the
features were given.  The `(n_voxels x n_features)` result matrix is
represented as its list of columns; the dictionary access
`ma.images[image_type]` is the `Option` value of the lookup. -/
def analyze_features (sf : StatFns) (ds : Dataset) (features : List String)
    (image_type : ImgKey) (threshold q : ℚ) : List (Option (List Val)) :=
  features.map (fun f =>
    imgLookup
      (MetaAnalysis.images sf ds.image_table (ds.get_studies f threshold)
        none q (1 / 2) (PyNum.pint 1))
      image_type)

/-- Modelled from the spec (section 4.2 step 8) for the refinement
claim about `p_to_z`: halve the two-tailed p, clamp below `1e-240` up
to `1e-240`, take `|ppf| * sign`, and cap an infinite z at magnitude
`ppf(1e-240) * -1` **with the sign reapplied to the capped value**. -/
def specPToZ (ppf : Val → Val) (x s : Val) : Val :=
  let x1 := x.div (Val.num 2)
  let x2 := clampP x1
  let z := (ppf x2).abs.mul s
  if z.isInf then ((ppf (Val.num epsQ)).mul (Val.num (-1))).mul s else z

/-- Executable finiteness of the whole activation matrix. -/
def finData (mt : ImageTable) : Bool :=
  mt.data.all (fun row => row.all Val.isNum)

/-- Executable binarity (all entries 0 or 1) of the activation matrix. -/
def binData (mt : ImageTable) : Bool :=
  mt.data.all (fun row => row.all (fun x => x = Val.num 0 ∨ x = Val.num 1))

/-- Executable check that every voxel row spans all studies. -/
def rowsLen (mt : ImageTable) : Bool :=
  mt.data.all (fun row => row.length = mt.ids.length)

/-! ### Generic list helpers -/

theorem zipWith_map_same {α β γ δ : Type} (f : β → γ → δ) (g : α → β)
    (h : α → γ) : ∀ l : List α,
    List.zipWith f (l.map g) (l.map h) = l.map (fun x => f (g x) (h x))
  | [] => rfl
  | _ :: xs => by
      simp only [List.map_cons, List.zipWith_cons_cons,
        zipWith_map_same f g h xs]

theorem zipWith_congr_mem {α β γ : Type} {f g : α → β → γ} :
    ∀ (l : List α) (l' : List β),
      (∀ a ∈ l, ∀ b ∈ l', f a b = g a b) →
      List.zipWith f l l' = List.zipWith g l l'
  | [], _, _ => by simp
  | _ :: _, [], _ => by simp
  | a :: l, b :: l', h => by
      simp only [List.zipWith_cons_cons]
      refine congrArg₂ _ (h a (by simp) b (by simp)) ?_
      exact zipWith_congr_mem l l' fun x hx y hy =>
        h x (by simp [hx]) y (by simp [hy])

theorem count_true_map_not (m : List Bool) :
    (m.map not).count true + m.count true = m.length := by
  induction m with
  | nil => rfl
  | cons b l ih =>
      cases b <;> simp [List.count_cons, ih] <;> omega

/-! ### Val arithmetic facts -/

theorem Val.div_num_of_ne (a b : ℚ) (hb : b ≠ 0) :
    (Val.num a).div (Val.num b) = Val.num (a / b) := by
  simp [Val.div, hb]

theorem Val.div_zero_zero : (Val.num 0).div (Val.num 0) = Val.nan := by
  simp [Val.div]

theorem Val.mul_num (a b : ℚ) :
    (Val.num a).mul (Val.num b) = Val.num (a * b) := rfl

theorem Val.add_num (a b : ℚ) :
    (Val.num a).add (Val.num b) = Val.num (a + b) := rfl

/-! ### Contrast partition facts -/

theorem selMask_count (mtids ids : List String) (h : mtids.Nodup) :
    (selMask mtids ids).count true = nSelected mtids ids := by
  induction mtids with
  | nil => simp [selMask, nSelected]
  | cons a l ih =>
      have hal : a ∉ l := (List.nodup_cons.mp h).1
      have hl : l.Nodup := (List.nodup_cons.mp h).2
      by_cases hmem : a ∈ ids
      · have : insert a l.toFinset ∩ ids.toFinset
            = insert a (l.toFinset ∩ ids.toFinset) :=
          Finset.insert_inter_of_mem (List.mem_toFinset.mpr hmem)
        have hnotin : a ∉ l.toFinset ∩ ids.toFinset := by
          simp [Finset.mem_inter, List.mem_toFinset, hal]
        have ihm := ih hl
        simp only [selMask, nSelected] at ihm
        simp [selMask, nSelected, List.count_cons, hmem, this,
          Finset.card_insert_of_not_mem hnotin]
        omega
      · have : insert a l.toFinset ∩ ids.toFinset
            = l.toFinset ∩ ids.toFinset :=
          Finset.insert_inter_of_not_mem (by simp [List.mem_toFinset, hmem])
        have ihm := ih hl
        simp only [selMask, nSelected] at ihm
        simp [selMask, nSelected, List.count_cons, hmem, this]
        omega

theorem selMask_length (mtids ids : List String) :
    (selMask mtids ids).length = mtids.length := by
  simp [selMask]

theorem nSelected_le_length (mtids ids : List String) (h : mtids.Nodup) :
    nSelected mtids ids ≤ mtids.length := by
  rw [← selMask_count mtids ids h, ← selMask_length mtids ids]
  exact List.count_le_length true (selMask mtids ids)

theorem nMappables_none (mtids ids : List String) (h : mtids.Nodup) :
    nMappables mtids ids none = mtids.length := by
  have h1 := count_true_map_not (selMask mtids ids)
  have h2 := selMask_count mtids ids h
  have h3 := selMask_length mtids ids
  simp only [nMappables, nUnselected, unselMask]
  omega

/-! ### dot-product and row-sum facts -/

theorem dotB_finite (row : List Val) (hrow : ∀ x ∈ row, x.isNum = true) :
    ∀ mask : List Bool, ∃ s : ℚ, dotB row mask = Val.num s := by
  induction row with
  | nil => intro mask; exact ⟨0, rfl⟩
  | cons x xs ih =>
      intro mask
      cases mask with
      | nil => exact ⟨0, rfl⟩
      | cons b bs =>
          obtain ⟨a, ha⟩ : ∃ a, x = Val.num a := by
            have := hrow x (by simp)
            cases x <;> simp_all [Val.isNum]
          obtain ⟨s, hs⟩ := ih (fun y hy => hrow y (by simp [hy])) bs
          refine ⟨a * (if b then 1 else 0) + s, ?_⟩
          simp only [dotB, List.zipWith_cons_cons, List.foldr_cons, ha]
          rw [show (List.zipWith
              (fun x b => x.mul (Val.num (if b then 1 else 0))) xs bs).foldr
              Val.add (Val.num 0) = dotB xs bs from rfl, hs]
          rfl

theorem rowSum_finite (row : List Val) (hrow : ∀ x ∈ row, x.isNum = true) :
    ∃ s : ℚ, rowSum row = Val.num s := by
  induction row with
  | nil => exact ⟨0, rfl⟩
  | cons x xs ih =>
      obtain ⟨a, ha⟩ : ∃ a, x = Val.num a := by
        have := hrow x (by simp)
        cases x <;> simp_all [Val.isNum]
      obtain ⟨s, hs⟩ := ih fun y hy => hrow y (by simp [hy])
      exact ⟨a + s, by simp only [rowSum, List.foldr_cons, ha]
                       rw [show xs.foldr Val.add (Val.num 0) = rowSum xs from rfl,
                         hs]
                       rfl⟩

theorem dotB_binary (row : List Val)
    (hrow : ∀ x ∈ row, x = Val.num 0 ∨ x = Val.num 1) :
    ∀ mask : List Bool, ∃ s : ℚ,
      dotB row mask = Val.num s ∧ 0 ≤ s ∧ s ≤ (mask.count true : ℚ) := by
  induction row with
  | nil =>
      intro mask
      exact ⟨0, rfl, le_refl 0, by positivity⟩
  | cons x xs ih =>
      intro mask
      cases mask with
      | nil => exact ⟨0, rfl, le_refl 0, by positivity⟩
      | cons b bs =>
          obtain ⟨s, hs, hs0, hsc⟩ := ih (fun y hy => hrow y (by simp [hy])) bs
          have hunfold : dotB (x :: xs) (b :: bs)
              = Val.add (x.mul (Val.num (if b then 1 else 0))) (dotB xs bs) := rfl
          have hcast : ((b :: bs).count true : ℚ)
              = (bs.count true : ℚ) + (if b then 1 else 0) := by
            cases b <;> simp [List.count_cons]
          rcases hrow x (by simp) with h0 | h1
          · refine ⟨s, ?_, hs0, ?_⟩
            · rw [hunfold, h0, hs]
              cases b <;> simp [Val.mul, Val.add]
            · rw [hcast]
              cases b <;> simp <;> linarith
          · refine ⟨(if b then (1 : ℚ) else 0) + s, ?_, ?_, ?_⟩
            · rw [hunfold, h1, hs]
              cases b <;> simp [Val.mul, Val.add]
            · cases b <;> simp <;> linarith
            · rw [hcast]
              linarith

theorem rowSum_binary (row : List Val)
    (hrow : ∀ x ∈ row, x = Val.num 0 ∨ x = Val.num 1) :
    ∃ s : ℚ, rowSum row = Val.num s ∧ 0 ≤ s ∧ s ≤ (row.length : ℚ) := by
  induction row with
  | nil => exact ⟨0, rfl, le_refl 0, by positivity⟩
  | cons x xs ih =>
      obtain ⟨s, hs, hs0, hsl⟩ := ih fun y hy => hrow y (by simp [hy])
      have hunfold : rowSum (x :: xs) = Val.add x (rowSum xs) := rfl
      have hcast : (((x :: xs).length : ℚ)) = (xs.length : ℚ) + 1 := by
        push_cast [List.length_cons]
        ring
      rcases hrow x (by simp) with h0 | h1
      · refine ⟨s, ?_, hs0, ?_⟩
        · rw [hunfold, h0, hs]; simp [Val.add]
        · rw [hcast]; linarith
      · refine ⟨1 + s, ?_, by linarith, ?_⟩
        · rw [hunfold, h1, hs]; rfl
        · rw [hcast]; linarith

/-! ### Map normal forms of the probability images -/

theorem pAgFList_eq_map (mt : ImageTable) (ids : List String) :
    pAgFList mt ids = mt.data.map (fun row =>
      (dotB row (selMask mt.ids ids)).div (Val.num (nSelected mt.ids ids : ℚ))) := by
  simp [pAgFList, nsaList, List.map_map]

theorem pAgUList_eq_map (mt : ImageTable) (ids : List String)
    (ids2 : Option (List String)) :
    pAgUList mt ids ids2 = mt.data.map (fun row =>
      (dotB row (unselMask mt.ids ids ids2)).div
        (Val.num (nUnselected mt.ids ids ids2 : ℚ))) := by
  simp [pAgUList, nuaList, List.map_map]

theorem pFgAList_eq_map (mt : ImageTable) (ids : List String)
    (ids2 : Option (List String)) :
    pFgAList mt ids ids2 = mt.data.map (fun row =>
      (((dotB row (selMask mt.ids ids)).div
          (Val.num (nSelected mt.ids ids : ℚ))).mul (pFVal mt.ids ids ids2)).div
        ((rowSum row).div (Val.num (nMappables mt.ids ids ids2 : ℚ)))) := by
  rw [pFgAList, pAgFList_eq_map, pAList, zipWith_map_same]

theorem pAgFPriorList_eq_map (prior : ℚ) (mt : ImageTable) (ids : List String)
    (ids2 : Option (List String)) :
    pAgFPriorList prior mt ids ids2 = mt.data.map (fun row =>
      ((Val.num prior).mul ((dotB row (selMask mt.ids ids)).div
          (Val.num (nSelected mt.ids ids : ℚ)))).add
        ((Val.num (1 - prior)).mul ((dotB row (unselMask mt.ids ids ids2)).div
          (Val.num (nUnselected mt.ids ids ids2 : ℚ))))) := by
  rw [pAgFPriorList, pAgFList_eq_map, pAgUList_eq_map, zipWith_map_same]

theorem pFgAPriorList_eq_map (prior : ℚ) (mt : ImageTable) (ids : List String)
    (ids2 : Option (List String)) :
    pFgAPriorList prior mt ids ids2 = mt.data.map (fun row =>
      (((dotB row (selMask mt.ids ids)).div
          (Val.num (nSelected mt.ids ids : ℚ))).mul (Val.num prior)).div
        (((Val.num prior).mul ((dotB row (selMask mt.ids ids)).div
            (Val.num (nSelected mt.ids ids : ℚ)))).add
          ((Val.num (1 - prior)).mul ((dotB row (unselMask mt.ids ids ids2)).div
            (Val.num (nUnselected mt.ids ids ids2 : ℚ)))))) := by
  rw [pFgAPriorList, pAgFList_eq_map, pAgFPriorList_eq_map, zipWith_map_same]

/-! ### Degenerate-contrast helpers -/

theorem selMask_all_false (mtids ids : List String)
    (h : ∀ s ∈ mtids, s ∉ ids) :
    selMask mtids ids = List.replicate mtids.length false := by
  rw [List.eq_replicate_iff]
  constructor
  · simp [selMask]
  · intro b hb
    obtain ⟨s, hs, rfl⟩ := List.mem_map.mp hb
    simp [h s hs]

theorem dotB_replicate_false (row : List Val)
    (hrow : ∀ x ∈ row, x.isNum = true) :
    ∀ n : ℕ, dotB row (List.replicate n false) = Val.num 0 := by
  induction row with
  | nil => intro n; rfl
  | cons x xs ih =>
      intro n
      cases n with
      | zero => rfl
      | succ m =>
          obtain ⟨a, ha⟩ : ∃ a, x = Val.num a := by
            have := hrow x (by simp)
            cases x <;> simp_all [Val.isNum]
          have hunfold : dotB (x :: xs) (List.replicate (m + 1) false)
              = Val.add (x.mul (Val.num 0)) (dotB xs (List.replicate m false)) := rfl
          rw [hunfold, ha, ih (fun y hy => hrow y (by simp [hy])) m]
          simp [Val.mul, Val.add]

theorem nSelected_eq_zero (mtids ids : List String)
    (h : ∀ s ∈ mtids, s ∉ ids) : nSelected mtids ids = 0 := by
  rw [nSelected, Finset.card_eq_zero, Finset.eq_empty_iff_forall_not_mem]
  intro x hx
  rw [Finset.mem_inter, List.mem_toFinset, List.mem_toFinset] at hx
  exact h x hx.1 hx.2

/-! ### Lookup and masking helpers -/

theorem imgLookup_map_snd (g : List Val → List Val) :
    ∀ (imgs : List (ImgKey × List Val)) (k : ImgKey),
      imgLookup (imgs.map (fun kv => (kv.1, g kv.2))) k
        = (imgLookup imgs k).map g := by
  intro imgs
  induction imgs with
  | nil => intro k; rfl
  | cons kv rest ih =>
      intro k
      by_cases h : k = kv.1 <;> simp [imgLookup, h, ih]

theorem zeroFrom_length (e : ℕ → Bool) :
    ∀ (i : ℕ) (l : List Val), (zeroFrom e i l).length = l.length := by
  intro i l
  induction l generalizing i with
  | nil => rfl
  | cons x xs ih => simp [zeroFrom, ih]

theorem zeroFrom_getElem? (e : ℕ → Bool) :
    ∀ (l : List Val) (i v : ℕ),
      (zeroFrom e i l)[v]? = (l[v]?).map
        (fun x => if e (i + v) then Val.num 0 else x) := by
  intro l
  induction l with
  | nil => intro i v; simp [zeroFrom]
  | cons x xs ih =>
      intro i v
      cases v with
      | zero => simp [zeroFrom]
      | succ m =>
          simp only [zeroFrom, List.getElem?_cons_succ]
          rw [ih (i + 1) m]
          simp only [show i + 1 + m = i + (m + 1) from by omega]

theorem lookup_raw_pA (sf : StatFns) (mt : ImageTable) (ids : List String)
    (ids2 : Option (List String)) (q prior : ℚ) :
    imgLookup (metaImagesRaw sf mt ids ids2 q prior) ImgKey.pA
      = some (pAList mt ids ids2) := by
  simp [metaImagesRaw, imgLookup]

theorem lookup_raw_pAgF (sf : StatFns) (mt : ImageTable) (ids : List String)
    (ids2 : Option (List String)) (q prior : ℚ) :
    imgLookup (metaImagesRaw sf mt ids ids2 q prior) ImgKey.pAgF
      = some (pAgFList mt ids) := by
  simp [metaImagesRaw, imgLookup]

theorem lookup_raw_pAgF_prior (sf : StatFns) (mt : ImageTable)
    (ids : List String) (ids2 : Option (List String)) (q prior : ℚ) :
    imgLookup (metaImagesRaw sf mt ids ids2 q prior) (ImgKey.pAgF_prior prior)
      = some (pAgFPriorList prior mt ids ids2) := by
  simp [metaImagesRaw, imgLookup]

theorem lookup_raw_consistency (sf : StatFns) (mt : ImageTable)
    (ids : List String) (ids2 : Option (List String)) (q prior : ℚ) :
    imgLookup (metaImagesRaw sf mt ids ids2 q prior) ImgKey.consistency_z
      = some (z1List sf mt ids) := by
  simp [metaImagesRaw, imgLookup]

theorem lookup_raw_specificity (sf : StatFns) (mt : ImageTable)
    (ids : List String) (ids2 : Option (List String)) (q prior : ℚ) :
    imgLookup (metaImagesRaw sf mt ids ids2 q prior) ImgKey.specificity_z
      = some (z2List sf mt ids ids2) := by
  simp [metaImagesRaw, imgLookup]

theorem lookup_raw_z1FDR (sf : StatFns) (mt : ImageTable)
    (ids : List String) (ids2 : Option (List String)) (q prior : ℚ) :
    imgLookup (metaImagesRaw sf mt ids ids2 q prior) (ImgKey.pAgF_z_FDR q)
      = some (z1FDRList sf mt ids q) := by
  simp [metaImagesRaw, imgLookup]

theorem lookup_raw_z2FDR (sf : StatFns) (mt : ImageTable)
    (ids : List String) (ids2 : Option (List String)) (q prior : ℚ) :
    imgLookup (metaImagesRaw sf mt ids ids2 q prior) (ImgKey.pFgA_z_FDR q)
      = some (z2FDRList sf mt ids ids2 q) := by
  simp [metaImagesRaw, imgLookup]

theorem imgLookup_mask (ms : PyNum) (nmap : ℕ)
    (imgs : List (ImgKey × List Val)) (k : ImgKey) :
    imgLookup (maskImages ms nmap imgs) k =
      if msPos ms then
        (imgLookup imgs k).map (zeroFrom (exclPred ms nmap imgs) 0)
      else imgLookup imgs k := by
  by_cases h : msPos ms <;> simp [maskImages, h, imgLookup_map_snd]

theorem maskImages_eq_map (ms : PyNum) (nmap : ℕ)
    (imgs : List (ImgKey × List Val)) (h : msPos ms = true) :
    maskImages ms nmap imgs
      = imgs.map (fun kv => (kv.1, zeroFrom (exclPred ms nmap imgs) 0 kv.2)) := by
  simp [maskImages, h]

theorem zeroFrom_subset (e1 e2 : ℕ → Bool)
    (himp : ∀ v, e2 v = true → e1 v = true) :
    ∀ (i : ℕ) (l : List Val), zeroFrom e2 i (zeroFrom e1 i l) = zeroFrom e1 i l := by
  intro i l
  induction l generalizing i with
  | nil => rfl
  | cons x xs ih =>
      simp only [zeroFrom, List.cons.injEq]
      refine ⟨?_, ih (i + 1)⟩
      by_cases h2 : e2 i
      · rw [himp i h2]
        simp [h2]
      · simp [h2]

theorem exclPred_raw (sf : StatFns) (mt : ImageTable) (ids : List String)
    (ids2 : Option (List String)) (q prior : ℚ) (ms : PyNum) (nmap : ℕ) :
    exclPred ms nmap (metaImagesRaw sf mt ids ids2 q prior)
      = fun v => Val.lt ((pAList mt ids ids2).getD v Val.nan)
          (Val.num (msThresh nmap ms)) := by
  funext v
  unfold exclPred
  rw [lookup_raw_pA]
  rfl

/-- C5: the exclusion set of a second masking pass, computed from the
already-masked `pA` image, only selects voxels the first pass already
excluded. -/
theorem exclPred_mask_subset (ms : PyNum) (nmap : ℕ)
    (imgs : List (ImgKey × List Val)) (hpos : msPos ms = true) :
    ∀ v, exclPred ms nmap (maskImages ms nmap imgs) v = true →
      exclPred ms nmap imgs v = true := by
  intro v h2
  unfold exclPred at h2
  rw [imgLookup_mask, if_pos hpos] at h2
  cases hpA : imgLookup imgs ImgKey.pA with
  | none =>
      rw [hpA] at h2
      simp [Val.lt] at h2
  | some pA0 =>
      rw [hpA] at h2
      simp only [Option.map_some', Option.getD_some] at h2
      rw [List.getD_eq_getElem?_getD, zeroFrom_getElem?] at h2
      simp only [Nat.zero_add] at h2
      cases hx : pA0[v]? with
      | none => rw [hx] at h2; simp [Val.lt] at h2
      | some x =>
          rw [hx] at h2
          simp only [Option.map_some', Option.getD_some] at h2
          have hval : exclPred ms nmap imgs v
              = Val.lt x (Val.num (msThresh nmap ms)) := by
            unfold exclPred
            rw [hpA]
            simp [List.getD_eq_getElem?_getD, hx]
          by_cases he1 : exclPred ms nmap imgs v
          · exact he1
          · rw [if_neg he1] at h2
            rw [hval, h2] at he1
            exact absurd rfl he1

/-- Claim C5: applying the min-studies masking pass twice with the same
threshold changes nothing beyond the first application: voxels zeroed by
the first pass have `pA = 0` afterwards and are either re-excluded (and
re-zeroed to the same 0) or retained as 0, and no retained voxel becomes
excluded, so the image dictionary is unchanged. -/
theorem claim_C5 (ms : PyNum) (nmap : ℕ)
    (imgs : List (ImgKey × List Val)) (hmap : 0 < nmap) :
    maskImages ms nmap (maskImages ms nmap imgs) = maskImages ms nmap imgs := by
  by_cases hpos : msPos ms
  · have himp := exclPred_mask_subset ms nmap imgs hpos
    rw [maskImages_eq_map ms nmap (maskImages ms nmap imgs) hpos]
    rw [maskImages_eq_map ms nmap imgs hpos] at himp ⊢
    rw [List.map_map]
    have hfun : ((fun kv : ImgKey × List Val =>
          (kv.1, zeroFrom (exclPred ms nmap
            ((imgs.map (fun kv => (kv.1, zeroFrom (exclPred ms nmap imgs) 0 kv.2))))) 0 kv.2)) ∘
        (fun kv : ImgKey × List Val =>
          (kv.1, zeroFrom (exclPred ms nmap imgs) 0 kv.2)))
        = fun kv : ImgKey × List Val =>
            (kv.1, zeroFrom (exclPred ms nmap imgs) 0 kv.2) := by
      funext kv
      simp only [Function.comp_apply]
      rw [zeroFrom_subset _ _ himp]
    rw [hfun]
  · simp [maskImages, hpos]

/-- Witness for C5 at a concrete dictionary and threshold. -/
theorem claim_C5_witness :
    0 < 2 ∧
    maskImages (PyNum.pint 1) 2
        (maskImages (PyNum.pint 1) 2
          [(ImgKey.pA, [Val.num (1/2), Val.num 0]),
           (ImgKey.pAgF, [Val.num 1, Val.num 1])])
      = maskImages (PyNum.pint 1) 2
          [(ImgKey.pA, [Val.num (1/2), Val.num 0]),
           (ImgKey.pAgF, [Val.num 1, Val.num 1])] :=
  ⟨by decide,
   claim_C5 (PyNum.pint 1) 2
     [(ImgKey.pA, [Val.num (1/2), Val.num 0]),
      (ImgKey.pAgF, [Val.num 1, Val.num 1])] (by decide)⟩

/-- Claim C4: the min-studies masking step (a) converts an integer
`min_studies` to a proportion by dividing by `n_mappables`; (b) excludes
exactly the voxels with `pA[v] <` threshold — in particular a voxel
whose `pA` exactly equals the threshold is retained — and zeroes every
image of the dictionary at the excluded indices; (c) skips entirely when
`min_studies == 0` (integer or float), changing no image entry. -/
theorem claim_C4 (nmap : ℕ) (imgs : List (ImgKey × List Val))
    (hmap : 0 < nmap) :
    (∀ n : ℤ, 0 < n →
        maskImages (PyNum.pint n) nmap imgs
          = maskImages (PyNum.pfloat ((n : ℚ) / (nmap : ℚ))) nmap imgs) ∧
    (∀ ms : PyNum, msPos ms = true → ∀ k img, imgLookup imgs k = some img →
        ∃ img', imgLookup (maskImages ms nmap imgs) k = some img' ∧
          (∀ v x, img[v]? = some x →
            img'[v]? = some (if Val.lt
                (((imgLookup imgs ImgKey.pA).getD []).getD v Val.nan)
                (Val.num (msThresh nmap ms))
              then Val.num 0 else x)) ∧
          (∀ v x, img[v]? = some x →
            ((imgLookup imgs ImgKey.pA).getD []).getD v Val.nan
                = Val.num (msThresh nmap ms) →
            img'[v]? = some x)) ∧
    maskImages (PyNum.pint 0) nmap imgs = imgs ∧
    maskImages (PyNum.pfloat 0) nmap imgs = imgs := by
  refine ⟨?_, ?_, ?_, ?_⟩
  · intro n hn
    have hposInt : msPos (PyNum.pint n) = true := by
      simp [msPos, hn]
    have hposFlt : msPos (PyNum.pfloat ((n : ℚ) / (nmap : ℚ))) = true := by
      simp only [msPos, decide_eq_true_eq]
      apply div_pos
      · exact_mod_cast hn
      · exact_mod_cast hmap
    have hex : exclPred (PyNum.pint n) nmap imgs
        = exclPred (PyNum.pfloat ((n : ℚ) / (nmap : ℚ))) nmap imgs := rfl
    rw [maskImages_eq_map _ _ _ hposInt, maskImages_eq_map _ _ _ hposFlt, hex]
  · intro ms hpos k img hk
    refine ⟨zeroFrom (exclPred ms nmap imgs) 0 img, ?_, ?_, ?_⟩
    · rw [imgLookup_mask, if_pos hpos, hk]
      rfl
    · intro v x hx
      rw [zeroFrom_getElem?, hx]
      simp only [Option.map_some', Nat.zero_add]
      rfl
    · intro v x hx heq
      rw [zeroFrom_getElem?, hx]
      simp only [Option.map_some', Nat.zero_add]
      unfold exclPred
      rw [heq]
      simp [Val.lt]
  · rfl
  · rfl

/-- Witness for C4 at a concrete dictionary: with integer
`min_studies = 1` over 2 mappables, the threshold is 1/2; the first
voxel (`pA = 1/2`, exactly the threshold) is retained and the second
(`pA = 0`) is zeroed. -/
theorem claim_C4_witness :
    0 < 2 ∧
    imgLookup [(ImgKey.pA, [Val.num (1/2), Val.num 0]),
        (ImgKey.pAgF, [Val.num 1, Val.num 1])] ImgKey.pAgF
      = some [Val.num 1, Val.num 1] ∧
    maskImages (PyNum.pint 0) 2
        [(ImgKey.pA, [Val.num (1/2), Val.num 0]),
         (ImgKey.pAgF, [Val.num 1, Val.num 1])]
      = [(ImgKey.pA, [Val.num (1/2), Val.num 0]),
         (ImgKey.pAgF, [Val.num 1, Val.num 1])] := by
  refine ⟨by decide, by decide, ?_⟩
  exact (claim_C4 2
    [(ImgKey.pA, [Val.num (1/2), Val.num 0]),
     (ImgKey.pAgF, [Val.num 1, Val.num 1])] (by decide)).2.2.1

/-- Claim C9: the z-score images and the FDR-thresholded z-images do not
depend on the `prior` parameter: with all other arguments equal, two
runs with priors `p1` and `p2` produce identical `consistency_z`,
`specificity_z`, and FDR z-images (the masking step also reads only the
prior-independent `pA` image). -/
theorem claim_C9 (sf : StatFns) (mt : ImageTable) (ids : List String)
    (ids2 : Option (List String)) (q : ℚ) (ms : PyNum) (p1 p2 : ℚ) :
    imgLookup (MetaAnalysis.images sf mt ids ids2 q p1 ms) ImgKey.consistency_z
      = imgLookup (MetaAnalysis.images sf mt ids ids2 q p2 ms) ImgKey.consistency_z ∧
    imgLookup (MetaAnalysis.images sf mt ids ids2 q p1 ms) ImgKey.specificity_z
      = imgLookup (MetaAnalysis.images sf mt ids ids2 q p2 ms) ImgKey.specificity_z ∧
    imgLookup (MetaAnalysis.images sf mt ids ids2 q p1 ms) (ImgKey.pAgF_z_FDR q)
      = imgLookup (MetaAnalysis.images sf mt ids ids2 q p2 ms) (ImgKey.pAgF_z_FDR q) ∧
    imgLookup (MetaAnalysis.images sf mt ids ids2 q p1 ms) (ImgKey.pFgA_z_FDR q)
      = imgLookup (MetaAnalysis.images sf mt ids ids2 q p2 ms) (ImgKey.pFgA_z_FDR q) := by
  have h1 : ∀ p : ℚ,
      imgLookup (MetaAnalysis.images sf mt ids ids2 q p ms) ImgKey.consistency_z
        = if msPos ms then
            (some (z1List sf mt ids)).map
              (zeroFrom (fun v => Val.lt ((pAList mt ids ids2).getD v Val.nan)
                (Val.num (msThresh (nMappables mt.ids ids ids2) ms))) 0)
          else some (z1List sf mt ids) := by
    intro p
    unfold MetaAnalysis.images
    rw [imgLookup_mask, lookup_raw_consistency, exclPred_raw]
  have h2 : ∀ p : ℚ,
      imgLookup (MetaAnalysis.images sf mt ids ids2 q p ms) ImgKey.specificity_z
        = if msPos ms then
            (some (z2List sf mt ids ids2)).map
              (zeroFrom (fun v => Val.lt ((pAList mt ids ids2).getD v Val.nan)
                (Val.num (msThresh (nMappables mt.ids ids ids2) ms))) 0)
          else some (z2List sf mt ids ids2) := by
    intro p
    unfold MetaAnalysis.images
    rw [imgLookup_mask, lookup_raw_specificity, exclPred_raw]
  have h3 : ∀ p : ℚ,
      imgLookup (MetaAnalysis.images sf mt ids ids2 q p ms) (ImgKey.pAgF_z_FDR q)
        = if msPos ms then
            (some (z1FDRList sf mt ids q)).map
              (zeroFrom (fun v => Val.lt ((pAList mt ids ids2).getD v Val.nan)
                (Val.num (msThresh (nMappables mt.ids ids ids2) ms))) 0)
          else some (z1FDRList sf mt ids q) := by
    intro p
    unfold MetaAnalysis.images
    rw [imgLookup_mask, lookup_raw_z1FDR, exclPred_raw]
  have h4 : ∀ p : ℚ,
      imgLookup (MetaAnalysis.images sf mt ids ids2 q p ms) (ImgKey.pFgA_z_FDR q)
        = if msPos ms then
            (some (z2FDRList sf mt ids ids2 q)).map
              (zeroFrom (fun v => Val.lt ((pAList mt ids ids2).getD v Val.nan)
                (Val.num (msThresh (nMappables mt.ids ids ids2) ms))) 0)
          else some (z2FDRList sf mt ids ids2 q) := by
    intro p
    unfold MetaAnalysis.images
    rw [imgLookup_mask, lookup_raw_z2FDR, exclPred_raw]
  exact ⟨(h1 p1).trans (h1 p2).symm, (h2 p1).trans (h2 p2).symm,
    (h3 p1).trans (h3 p2).symm, (h4 p1).trans (h4 p2).symm⟩

/-- A concrete instantiation of the external statistical collaborators,
used for closed counterexamples and witnesses. -/
def sfTriv : StatFns where
  one_way := fun l _ => l
  two_way := fun cells => cells.map (fun _ => Val.num 1)
  fdr := fun _ _ => Val.num 0
  threshold_img := fun z _ _ => z
  ppf := fun _ => Val.num 0

/-- A one-study, one-voxel dataset with the voxel active. -/
def mtOne : ImageTable where
  ids := ["s1"]
  data := [[Val.num 1]]

/-- Counterexample to claim C1: constructing a `MetaAnalysis` with an
empty `ids` list against a dataset does NOT fail: no `DegenerateContrast`
error exists in the code.  With `n_selected = 0` the construction runs to
completion and computes `pAgF = n_selected_active / n_selected = 0/0 = NaN`
— the division by zero the claim says must not be reached. -/
theorem claim_C1_cex :
    nSelected mtOne.ids [] = 0 ∧
    imgLookup (MetaAnalysis.images sfTriv mtOne [] none (1/100) (1/2)
        (PyNum.pint 1)) ImgKey.pAgF
      = some [Val.nan] := by
  constructor
  · decide
  · norm_num [MetaAnalysis.images, maskImages, msPos, metaImagesRaw, imgLookup,
      exclPred, msThresh, pAList, pAgFList, nsaList, mtOne, sfTriv, nMappables,
      nSelected, nUnselected, unselMask, selMask, dotB, rowSum, Val.div,
      Val.mul, Val.add, Val.lt, zeroFrom, List.getD]
    exact fun h => ImgKey.noConfusion h

/-- Claim C1 as amended: the constructor performs no degenerate-contrast
validation.  For every dataset with finite activation data and every
`ids` list disjoint from the dataset's study list (so `n_selected = 0`),
construction succeeds and every entry of the `pAgF` image is `NaN`
(`0/0`), rather than an error being raised. -/
theorem claim_C1_amended (sf : StatFns) (mt : ImageTable)
    (ids : List String) (q prior : ℚ)
    (hdisj : ∀ s ∈ mt.ids, s ∉ ids) (hfin : finData mt = true) :
    nSelected mt.ids ids = 0 ∧
    imgLookup (MetaAnalysis.images sf mt ids none q prior (PyNum.pint 0))
        ImgKey.pAgF
      = some (List.replicate mt.data.length Val.nan) := by
  have hnsel := nSelected_eq_zero mt.ids ids hdisj
  refine ⟨hnsel, ?_⟩
  unfold MetaAnalysis.images
  have hskip : maskImages (PyNum.pint 0) (nMappables mt.ids ids none)
      (metaImagesRaw sf mt ids none q prior)
      = metaImagesRaw sf mt ids none q prior := rfl
  rw [hskip, lookup_raw_pAgF]
  refine congrArg some ?_
  rw [pAgFList_eq_map, List.eq_replicate_iff]
  refine ⟨by simp, ?_⟩
  intro b hb
  obtain ⟨row, hrow, rfl⟩ := List.mem_map.mp hb
  have hrowfin : ∀ x ∈ row, x.isNum = true := by
    have := (List.all_eq_true.mp hfin) row hrow
    exact fun x hx => List.all_eq_true.mp this x hx
  rw [selMask_all_false mt.ids ids hdisj,
    dotB_replicate_false row hrowfin mt.ids.length, hnsel]
  simp [Val.div]

/-- Witness for the amended C1 at a concrete dataset and disjoint id
list. -/
theorem claim_C1_witness :
    (∀ s ∈ mtOne.ids, s ∉ ["other"]) ∧ finData mtOne = true ∧
    (nSelected mtOne.ids ["other"] = 0 ∧
      imgLookup (MetaAnalysis.images sfTriv mtOne ["other"] none (1/100)
          (1/2) (PyNum.pint 0)) ImgKey.pAgF
        = some (List.replicate mtOne.data.length Val.nan)) :=
  ⟨by decide, by decide,
   claim_C1_amended sfTriv mtOne ["other"] (1/100) (1/2)
     (by decide) (by decide)⟩

/-- A two-study, one-voxel dataset (voxel active in the first study
only), giving a non-degenerate contrast. -/
def mtTwo : ImageTable where
  ids := ["a", "b"]
  data := [[Val.num 1, Val.num 0]]

/-- Counterexample to claim C6: constructing a `MetaAnalysis` with
`prior = 2` (outside (0,1)), `q = 3` (outside (0,1)) and
`min_studies = -1` (negative) raises no `InvalidPrior`,
`InvalidFDRRate` or `InvalidMinStudies` error: the constructor has no
validation.  The analysis completes, the out-of-range prior is used
as-is (producing the out-of-range probability `pAgF_prior = 2`), and
the negative `min_studies` silently disables masking. -/
theorem claim_C6_cex :
    ¬ ((2 : ℚ) < 1) ∧ ¬ ((3 : ℚ) < 1) ∧ ((-1 : ℤ) < 0) ∧
    imgLookup (MetaAnalysis.images sfTriv mtTwo ["a"] none 3 2
        (PyNum.pint (-1))) (ImgKey.pAgF_prior 2)
      = some [Val.num 2] := by
  refine ⟨by norm_num, by norm_num, by norm_num, ?_⟩
  have hsel : selMask ["a", "b"] ["a"] = [true, false] := by decide
  have hunsel : unselMask ["a", "b"] ["a"] none = [false, true] := by decide
  have hnsel : nSelected ["a", "b"] ["a"] = 1 := by decide
  have hnunsel : nUnselected ["a", "b"] ["a"] none = 1 := by decide
  norm_num [MetaAnalysis.images, maskImages, msPos, metaImagesRaw, imgLookup,
    pAgFPriorList, pAgFList, pAgUList, nsaList, nuaList, mtTwo, sfTriv,
    hsel, hunsel, hnsel, hnunsel, dotB, rowSum, Val.div, Val.mul, Val.add]
  rw [if_neg (by decide), if_neg (by decide), if_neg (by decide)]

/-- Claim C6 as amended: no entry validation exists.  Whatever the
values of `prior`, `q` and a negative integer `min_studies`, the
constructor runs: masking is silently skipped for the negative
`min_studies`, and the image dictionary embeds the out-of-range `prior`
and `q` unchanged in its keys. -/
theorem claim_C6_amended (sf : StatFns) (mt : ImageTable)
    (ids : List String) (ids2 : Option (List String)) (q prior : ℚ)
    (n : ℤ) (hn : n < 0) :
    MetaAnalysis.images sf mt ids ids2 q prior (PyNum.pint n)
      = metaImagesRaw sf mt ids ids2 q prior ∧
    (metaImagesRaw sf mt ids ids2 q prior).map Prod.fst
      = [ImgKey.pA, ImgKey.pAgF, ImgKey.pFgA, ImgKey.pAgF_prior prior,
         ImgKey.pFgA_prior prior, ImgKey.consistency_z, ImgKey.specificity_z,
         ImgKey.pAgF_z_FDR q, ImgKey.pFgA_z_FDR q] := by
  constructor
  · have hneg : msPos (PyNum.pint n) = false := by
      simp [msPos]
      omega
    unfold MetaAnalysis.images maskImages
    rw [hneg]
    simp
  · simp [metaImagesRaw]

/-- Witness for the amended C6 at concrete out-of-range parameters. -/
theorem claim_C6_witness :
    ((-1 : ℤ) < 0) ∧
    (MetaAnalysis.images sfTriv mtTwo ["a"] none 3 2 (PyNum.pint (-1))
        = metaImagesRaw sfTriv mtTwo ["a"] none 3 2 ∧
      (metaImagesRaw sfTriv mtTwo ["a"] none 3 2).map Prod.fst
        = [ImgKey.pA, ImgKey.pAgF, ImgKey.pFgA, ImgKey.pAgF_prior 2,
           ImgKey.pFgA_prior 2, ImgKey.consistency_z, ImgKey.specificity_z,
           ImgKey.pAgF_z_FDR 3, ImgKey.pFgA_z_FDR 3]) :=
  ⟨by norm_num,
   claim_C6_amended sfTriv mtTwo ["a"] none 3 2 (-1) (by norm_num)⟩

/-- Claim C3: for every voxel with `pA[v] = a > 0` (and a valid
contrast so that the divisions by `n_selected`, `n_unselected` and
`n_mappables` are real rational divisions), the computed images satisfy
`pFgA[v] = pAgF[v] * pF / pA[v]` exactly, the prior adjustment
`pAgF_prior[v] = prior * pAgF[v] + (1 - prior) * pAgU[v]` holds, and
`pFgA_prior[v]` is the same `Val.div` (hence the same zero-denominator
NaN/inf policy) applied to `pAgF[v] * prior` and `pAgF_prior[v]`. -/
theorem claim_C3 (mt : ImageTable) (ids : List String)
    (ids2 : Option (List String)) (prior : ℚ) (hfin : finData mt = true)
    (hsel : 0 < nSelected mt.ids ids)
    (hunsel : 0 < nUnselected mt.ids ids ids2) :
    ∀ (v : ℕ) (row : List Val) (a : ℚ), mt.data[v]? = some row →
      (pAList mt ids ids2)[v]? = some (Val.num a) → 0 < a →
      ∃ b c u : ℚ,
        (pAgFList mt ids)[v]? = some (Val.num b) ∧
        pFVal mt.ids ids ids2 = Val.num c ∧
        (pAgUList mt ids ids2)[v]? = some (Val.num u) ∧
        (pFgAList mt ids ids2)[v]? = some (Val.num (b * c / a)) ∧
        (pAgFPriorList prior mt ids ids2)[v]?
          = some (Val.num (prior * b + (1 - prior) * u)) ∧
        (pFgAPriorList prior mt ids ids2)[v]?
          = some (Val.div (Val.num (b * prior))
              (Val.num (prior * b + (1 - prior) * u))) := by
  intro v row a hrow hpa hapos
  have hmem : row ∈ mt.data := List.getElem?_mem hrow
  have hrowfin : ∀ x ∈ row, x.isNum = true :=
    fun x hx => List.all_eq_true.mp (List.all_eq_true.mp hfin row hmem) x hx
  obtain ⟨d, hd⟩ := dotB_finite row hrowfin (selMask mt.ids ids)
  obtain ⟨e, he⟩ := dotB_finite row hrowfin (unselMask mt.ids ids ids2)
  obtain ⟨s, hsum⟩ := rowSum_finite row hrowfin
  have hnsel0 : (nSelected mt.ids ids : ℚ) ≠ 0 :=
    ne_of_gt (by exact_mod_cast hsel)
  have hnunsel0 : (nUnselected mt.ids ids ids2 : ℚ) ≠ 0 :=
    ne_of_gt (by exact_mod_cast hunsel)
  have hnmappos : 0 < nMappables mt.ids ids ids2 := by
    unfold nMappables
    omega
  have hnmap0 : (nMappables mt.ids ids ids2 : ℚ) ≠ 0 :=
    ne_of_gt (by exact_mod_cast hnmappos)
  rw [pAList, List.getElem?_map, hrow, Option.map_some', hsum,
    Val.div_num_of_ne _ _ hnmap0] at hpa
  have ha : s / (nMappables mt.ids ids ids2 : ℚ) = a :=
    Val.num.inj (Option.some.inj hpa)
  refine ⟨d / (nSelected mt.ids ids : ℚ),
    (nSelected mt.ids ids : ℚ) / (nMappables mt.ids ids ids2 : ℚ),
    e / (nUnselected mt.ids ids ids2 : ℚ), ?_, ?_, ?_, ?_, ?_, ?_⟩
  · rw [pAgFList_eq_map, List.getElem?_map, hrow, Option.map_some', hd,
      Val.div_num_of_ne _ _ hnsel0]
  · rw [pFVal, Val.div_num_of_ne _ _ hnmap0]
  · rw [pAgUList_eq_map, List.getElem?_map, hrow, Option.map_some', he,
      Val.div_num_of_ne _ _ hnunsel0]
  · rw [pFgAList_eq_map, List.getElem?_map, hrow, Option.map_some', hd, hsum,
      pFVal, Val.div_num_of_ne _ _ hnmap0, Val.div_num_of_ne _ _ hnsel0,
      Val.div_num_of_ne _ _ hnmap0, Val.mul_num, ha,
      Val.div_num_of_ne _ _ (ne_of_gt hapos)]
  · rw [pAgFPriorList_eq_map, List.getElem?_map, hrow, Option.map_some', hd, he,
      Val.div_num_of_ne _ _ hnsel0, Val.div_num_of_ne _ _ hnunsel0,
      Val.mul_num, Val.mul_num, Val.add_num]
  · rw [pFgAPriorList_eq_map, List.getElem?_map, hrow, Option.map_some', hd, he,
      Val.div_num_of_ne _ _ hnsel0, Val.div_num_of_ne _ _ hnunsel0,
      Val.mul_num, Val.mul_num, Val.mul_num, Val.add_num]

/-- A two-study, one-voxel dataset with the voxel active in both
studies. -/
def mtC3 : ImageTable where
  ids := ["a", "b"]
  data := [[Val.num 1, Val.num 1]]

/-- Witness for C3 at a concrete non-degenerate contrast with
`pA[0] = 1 > 0`. -/
theorem claim_C3_witness :
    finData mtC3 = true ∧ 0 < nSelected mtC3.ids ["a"] ∧
    0 < nUnselected mtC3.ids ["a"] none ∧
    mtC3.data[0]? = some [Val.num 1, Val.num 1] ∧
    (pAList mtC3 ["a"] none)[0]? = some (Val.num 1) ∧ (0 : ℚ) < 1 ∧
    (∃ b c u : ℚ,
      (pAgFList mtC3 ["a"])[0]? = some (Val.num b) ∧
      pFVal mtC3.ids ["a"] none = Val.num c ∧
      (pAgUList mtC3 ["a"] none)[0]? = some (Val.num u) ∧
      (pFgAList mtC3 ["a"] none)[0]? = some (Val.num (b * c / 1)) ∧
      (pAgFPriorList (1/4) mtC3 ["a"] none)[0]?
        = some (Val.num ((1/4) * b + (1 - 1/4) * u)) ∧
      (pFgAPriorList (1/4) mtC3 ["a"] none)[0]?
        = some (Val.div (Val.num (b * (1/4)))
            (Val.num ((1/4) * b + (1 - 1/4) * u)))) := by
  have hnsel : nSelected ["a", "b"] ["a"] = 1 := by decide
  have hnunsel : nUnselected ["a", "b"] ["a"] none = 1 := by decide
  have hnsel' : 0 < nSelected mtC3.ids ["a"] := by decide
  have hnunsel' : 0 < nUnselected mtC3.ids ["a"] none := by decide
  have hpa : (pAList mtC3 ["a"] none)[0]? = some (Val.num 1) := by
    norm_num [pAList, mtC3, rowSum, nMappables, hnsel, hnunsel, Val.add,
      Val.div]
  exact ⟨by decide, hnsel', hnunsel', rfl, hpa, by norm_num,
    claim_C3 mtC3 ["a"] none (1/4) (by decide) hnsel' hnunsel'
      0 [Val.num 1, Val.num 1] 1 rfl hpa (by norm_num)⟩

/-- A three-study, one-voxel dataset with the voxel active in all three
studies. -/
def mtThree : ImageTable where
  ids := ["a", "b", "c"]
  data := [[Val.num 1, Val.num 1, Val.num 1]]

/-- Counterexample to claim C7: with a binary activation matrix and a
non-degenerate explicit control set (`ids = ["a"]`, `ids2 = ["b"]` over
three studies), the row sum runs over ALL studies of the dataset while
`n_mappables` counts only the two contrasted ones, so
`pA[0] = 3/2 > 1`: the claimed bound `pA <= 1` fails in the
explicit-control contrast mode. -/
theorem claim_C7_cex :
    binData mtThree = true ∧
    0 < nSelected mtThree.ids ["a"] ∧
    0 < nUnselected mtThree.ids ["a"] (some ["b"]) ∧
    (pAList mtThree ["a"] (some ["b"]))[0]? = some (Val.num (3/2)) ∧
    ¬ ((3/2 : ℚ) ≤ 1) := by
  refine ⟨by decide, by decide, by decide, ?_, by norm_num⟩
  have hnsel : nSelected ["a", "b", "c"] ["a"] = 1 := by decide
  have hnunsel : nUnselected ["a", "b", "c"] ["a"] (some ["b"]) = 1 := by
    decide
  norm_num [pAList, mtThree, rowSum, nMappables, hnsel, hnunsel, Val.add,
    Val.div]

/-- Claim C7 as amended: with binary activation data, a duplicate-free
study list, rows spanning all studies and a non-degenerate contrast,
`0 <= pAgF <= 1` and `0 <= pAgU <= 1` hold in both contrast modes, and
`0 <= pA` always; the upper bound `pA <= 1` holds in the complement
mode (`ids2 = None`), but not in general in the explicit-control
mode. -/
theorem claim_C7_amended (mt : ImageTable) (ids : List String)
    (ids2 : Option (List String)) (hbin : binData mt = true)
    (hnodup : mt.ids.Nodup) (hlen : rowsLen mt = true)
    (hsel : 0 < nSelected mt.ids ids)
    (hunsel : 0 < nUnselected mt.ids ids ids2) :
    ∀ (v : ℕ) (row : List Val), mt.data[v]? = some row →
      (∃ b : ℚ, (pAgFList mt ids)[v]? = some (Val.num b) ∧ 0 ≤ b ∧ b ≤ 1) ∧
      (∃ u : ℚ, (pAgUList mt ids ids2)[v]? = some (Val.num u) ∧
        0 ≤ u ∧ u ≤ 1) ∧
      (∃ a : ℚ, (pAList mt ids ids2)[v]? = some (Val.num a) ∧ 0 ≤ a) ∧
      (ids2 = none → ∃ a : ℚ, (pAList mt ids ids2)[v]? = some (Val.num a) ∧
        0 ≤ a ∧ a ≤ 1) := by
  intro v row hrow
  have hmem : row ∈ mt.data := List.getElem?_mem hrow
  have hrowbin : ∀ x ∈ row, x = Val.num 0 ∨ x = Val.num 1 := by
    intro x hx
    exact of_decide_eq_true
      (List.all_eq_true.mp (List.all_eq_true.mp hbin row hmem) x hx)
  have hrowlen : row.length = mt.ids.length :=
    of_decide_eq_true (List.all_eq_true.mp hlen row hmem)
  have hselpos : (0 : ℚ) < (nSelected mt.ids ids : ℚ) := by exact_mod_cast hsel
  have hunselpos : (0 : ℚ) < (nUnselected mt.ids ids ids2 : ℚ) := by
    exact_mod_cast hunsel
  have hnmappos : 0 < nMappables mt.ids ids ids2 := by
    unfold nMappables
    omega
  have hnmapposq : (0 : ℚ) < (nMappables mt.ids ids ids2 : ℚ) := by
    exact_mod_cast hnmappos
  obtain ⟨sb, hsb, hsb0, hsbc⟩ := dotB_binary row hrowbin (selMask mt.ids ids)
  obtain ⟨su, hsu, hsu0, hsuc⟩ :=
    dotB_binary row hrowbin (unselMask mt.ids ids ids2)
  obtain ⟨ss, hss, hss0, hssl⟩ := rowSum_binary row hrowbin
  refine ⟨⟨sb / (nSelected mt.ids ids : ℚ), ?_, ?_, ?_⟩,
    ⟨su / (nUnselected mt.ids ids ids2 : ℚ), ?_, ?_, ?_⟩,
    ⟨ss / (nMappables mt.ids ids ids2 : ℚ), ?_, ?_⟩, ?_⟩
  · rw [pAgFList_eq_map, List.getElem?_map, hrow, Option.map_some', hsb,
      Val.div_num_of_ne _ _ (ne_of_gt hselpos)]
  · exact div_nonneg hsb0 (le_of_lt hselpos)
  · rw [div_le_one hselpos]
    calc sb ≤ ((selMask mt.ids ids).count true : ℚ) := hsbc
    _ = (nSelected mt.ids ids : ℚ) := by
          exact_mod_cast congrArg Nat.cast (selMask_count mt.ids ids hnodup)
  · rw [pAgUList_eq_map, List.getElem?_map, hrow, Option.map_some', hsu,
      Val.div_num_of_ne _ _ (ne_of_gt hunselpos)]
  · exact div_nonneg hsu0 (le_of_lt hunselpos)
  · rw [div_le_one hunselpos]
    exact hsuc
  · rw [pAList, List.getElem?_map, hrow, Option.map_some', hss,
      Val.div_num_of_ne _ _ (ne_of_gt hnmapposq)]
  · exact div_nonneg hss0 (le_of_lt hnmapposq)
  · rintro rfl
    refine ⟨ss / (nMappables mt.ids ids none : ℚ), ?_, ?_, ?_⟩
    · rw [pAList, List.getElem?_map, hrow, Option.map_some', hss,
        Val.div_num_of_ne _ _ (ne_of_gt hnmapposq)]
    · exact div_nonneg hss0 (le_of_lt hnmapposq)
    · rw [div_le_one hnmapposq]
      calc ss ≤ (row.length : ℚ) := hssl
      _ = (mt.ids.length : ℚ) := by exact_mod_cast congrArg Nat.cast hrowlen
      _ = (nMappables mt.ids ids none : ℚ) := by
            exact_mod_cast
              congrArg Nat.cast (nMappables_none mt.ids ids hnodup).symm

/-- Witness for the amended C7 at a concrete complement-mode
contrast. -/
theorem claim_C7_witness :
    binData mtC3 = true ∧ mtC3.ids.Nodup ∧ rowsLen mtC3 = true ∧
    0 < nSelected mtC3.ids ["a"] ∧ 0 < nUnselected mtC3.ids ["a"] none ∧
    mtC3.data[0]? = some [Val.num 1, Val.num 1] ∧
    ((∃ b : ℚ, (pAgFList mtC3 ["a"])[0]? = some (Val.num b) ∧
        0 ≤ b ∧ b ≤ 1) ∧
      (∃ u : ℚ, (pAgUList mtC3 ["a"] none)[0]? = some (Val.num u) ∧
        0 ≤ u ∧ u ≤ 1) ∧
      (∃ a : ℚ, (pAList mtC3 ["a"] none)[0]? = some (Val.num a) ∧ 0 ≤ a) ∧
      ((none : Option (List String)) = none →
        ∃ a : ℚ, (pAList mtC3 ["a"] none)[0]? = some (Val.num a) ∧
          0 ≤ a ∧ a ≤ 1)) :=
  ⟨by decide, by decide, by decide, by decide, by decide, rfl,
   claim_C7_amended mtC3 ["a"] none (by decide) (by decide) (by decide)
     (by decide) (by decide) 0 [Val.num 1, Val.num 1] rfl⟩

theorem epsQ_le_half : epsQ ≤ 1 / 2 := by
  norm_num [epsQ]

theorem Val.lt_num (a b : ℚ) :
    Val.lt (Val.num a) (Val.num b) = decide (a < b) := rfl

theorem p_to_z_eq_zipWith (f : Val → Val) (p sgn : List Val) :
    p_to_z f p sgn = List.zipWith (fun x s =>
      let z := (f (clampP (x.div (Val.num 2)))).abs.mul s
      if z.isInf then (f (Val.num epsQ)).mul (Val.num (-1)) else z) p sgn := by
  simp only [p_to_z]
  rw [List.map_map, List.zipWith_map_left, List.map_zipWith]
  rfl

/-- Claim C2: on p-value arrays (entries in [0,1]) and sign arrays
(entries in {-1, 0, 1}), with the inverse normal CDF finite on
[1e-240, 1/2] (as `scipy.stats.norm.ppf` is), `p_to_z` halves each p,
clamps entries below 1e-240 up to 1e-240, computes `|ppf(p)| * sign`,
and the infinite-z cap agrees with the specified
"cap at |ppf(1e-240)| with the sign reapplied" behaviour: after the
clamp no z is infinite, so the two cap policies coincide and `p_to_z`
equals the specified per-entry conversion. -/
theorem claim_C2 (f : Val → Val) (p sgn : List Val)
    (hp : ∀ x ∈ p, ∃ q : ℚ, x = Val.num q ∧ 0 ≤ q ∧ q ≤ 1)
    (hs : ∀ x ∈ sgn, x = Val.num (-1) ∨ x = Val.num 0 ∨ x = Val.num 1)
    (hf : ∀ q : ℚ, epsQ ≤ q → q ≤ 1 / 2 →
      ∃ r : ℚ, f (Val.num q) = Val.num r) :
    p_to_z f p sgn = List.zipWith (specPToZ f) p sgn := by
  rw [p_to_z_eq_zipWith]
  apply zipWith_congr_mem
  intro x hx s hsmem
  obtain ⟨q, rfl, hq0, hq1⟩ := hp x hx
  have h2 : (Val.num q).div (Val.num 2) = Val.num (q / 2) :=
    Val.div_num_of_ne q 2 (by norm_num)
  have hclamp : ∃ q2 : ℚ, clampP (Val.num (q / 2)) = Val.num q2 ∧
      epsQ ≤ q2 ∧ q2 ≤ 1 / 2 := by
    by_cases hlt : Val.lt (Val.num (q / 2)) (Val.num epsQ) = true
    · exact ⟨epsQ, by rw [clampP, if_pos hlt], le_refl epsQ, epsQ_le_half⟩
    · refine ⟨q / 2, by rw [clampP, if_neg hlt], ?_, by linarith⟩
      rw [Val.lt_num, decide_eq_true_eq] at hlt
      linarith [not_lt.mp hlt]
  obtain ⟨q2, hq2, hq2lo, hq2hi⟩ := hclamp
  obtain ⟨r, hr⟩ := hf q2 hq2lo hq2hi
  simp only [specPToZ]
  rw [h2, hq2, hr]
  rcases hs s hsmem with h | h | h <;> subst h <;>
    simp [Val.abs, Val.mul, Val.isInf]

/-- Witness for C2 at a concrete p-value array, sign array and finite
inverse-CDF stand-in. -/
theorem claim_C2_witness :
    (∀ x ∈ [Val.num 1], ∃ q : ℚ, x = Val.num q ∧ 0 ≤ q ∧ q ≤ 1) ∧
    (∀ x ∈ [Val.num 1], x = Val.num (-1) ∨ x = Val.num 0 ∨ x = Val.num 1) ∧
    (∀ q : ℚ, epsQ ≤ q → q ≤ 1 / 2 →
      ∃ r : ℚ, (fun _ => Val.num 0) (Val.num q) = Val.num r) ∧
    p_to_z (fun _ => Val.num 0) [Val.num 1] [Val.num 1]
      = List.zipWith (specPToZ (fun _ => Val.num 0))
          [Val.num 1] [Val.num 1] := by
  have h1 : ∀ x ∈ [Val.num 1], ∃ q : ℚ, x = Val.num q ∧ 0 ≤ q ∧ q ≤ 1 := by
    intro x hx
    simp only [List.mem_singleton] at hx
    exact ⟨1, hx, by norm_num, by norm_num⟩
  have h2 : ∀ x ∈ [Val.num 1],
      x = Val.num (-1) ∨ x = Val.num 0 ∨ x = Val.num 1 := by
    intro x hx
    simp only [List.mem_singleton] at hx
    exact Or.inr (Or.inr hx)
  have h3 : ∀ q : ℚ, epsQ ≤ q → q ≤ 1 / 2 →
      ∃ r : ℚ, (fun _ => Val.num 0) (Val.num q) = Val.num r :=
    fun _ _ _ => ⟨0, rfl⟩
  exact ⟨h1, h2, h3, claim_C2 (fun _ => Val.num 0) [Val.num 1] [Val.num 1]
    h1 h2 h3⟩

/-- Claim C8: with no output directory, `analyze_features` returns one
column per feature, in the order the features were given; column `i` is
exactly the dictionary entry named by `image_type` of the
`MetaAnalysis` run on `dataset.get_studies(f_i, threshold)` with the
constructor defaults (`ids2 = None`, `prior = 0.5`,
`min_studies = 1`). -/
theorem claim_C8 (sf : StatFns) (ds : Dataset) (features : List String)
    (image_type : ImgKey) (threshold q : ℚ) :
    (analyze_features sf ds features image_type threshold q).length
      = features.length ∧
    ∀ (i : ℕ) (f : String), features[i]? = some f →
      (analyze_features sf ds features image_type threshold q)[i]?
        = some (imgLookup
            (MetaAnalysis.images sf ds.image_table (ds.get_studies f threshold)
              none q (1 / 2) (PyNum.pint 1)) image_type) := by
  constructor
  · simp [analyze_features]
  · intro i f hf
    rw [analyze_features, List.getElem?_map, hf, Option.map_some']

/-- Witness for C8 at a concrete dataset and one-feature list. -/
theorem claim_C8_witness :
    (["emotion"] : List String)[0]? = some "emotion" ∧
    (analyze_features sfTriv
        ⟨mtTwo, 1, fun _ _ => ["a"]⟩ ["emotion"] ImgKey.specificity_z
        (1/1000) (1/100))[0]?
      = some (imgLookup
          (MetaAnalysis.images sfTriv mtTwo ["a"] none (1/100) (1 / 2)
            (PyNum.pint 1)) ImgKey.specificity_z) :=
  ⟨rfl,
   (claim_C8 sfTriv ⟨mtTwo, 1, fun _ _ => ["a"]⟩ ["emotion"]
     ImgKey.specificity_z (1/1000) (1/100)).2 0 "emotion" rfl⟩

theorem selMask_congr (mtids : List String) {ids ids' : List String}
    (h : ids.toFinset = ids'.toFinset) :
    selMask mtids ids = selMask mtids ids' := by
  unfold selMask
  have hm : ∀ s : String, (s ∈ ids) = (s ∈ ids') := fun s =>
    propext (by rw [← List.mem_toFinset, ← List.mem_toFinset, h])
  simp only [hm]

theorem unselMask_congr (mtids : List String)
    {ids ids' : List String} {ids2 ids2' : Option (List String)}
    (h1 : ids.toFinset = ids'.toFinset)
    (h2 : ids2.map List.toFinset = ids2'.map List.toFinset) :
    unselMask mtids ids ids2 = unselMask mtids ids' ids2' := by
  cases ids2 with
  | none =>
      cases ids2' with
      | none =>
          unfold unselMask
          rw [selMask_congr mtids h1]
      | some l => simp at h2
  | some l =>
      cases ids2' with
      | none => simp at h2
      | some l' =>
          have hll : l.toFinset = l'.toFinset := by simpa using h2
          unfold unselMask
          have hm : ∀ s : String, (s ∈ l) = (s ∈ l') := fun s =>
            propext (by rw [← List.mem_toFinset, ← List.mem_toFinset, hll])
          simp only [hm]

theorem nSelected_congr (mtids : List String) {ids ids' : List String}
    (h : ids.toFinset = ids'.toFinset) :
    nSelected mtids ids = nSelected mtids ids' := by
  unfold nSelected
  rw [h]

theorem nUnselected_congr (mtids : List String)
    {ids ids' : List String} {ids2 ids2' : Option (List String)}
    (h1 : ids.toFinset = ids'.toFinset)
    (h2 : ids2.map List.toFinset = ids2'.map List.toFinset) :
    nUnselected mtids ids ids2 = nUnselected mtids ids' ids2' := by
  unfold nUnselected
  rw [unselMask_congr mtids h1 h2]

theorem nMappables_congr (mtids : List String)
    {ids ids' : List String} {ids2 ids2' : Option (List String)}
    (h1 : ids.toFinset = ids'.toFinset)
    (h2 : ids2.map List.toFinset = ids2'.map List.toFinset) :
    nMappables mtids ids ids2 = nMappables mtids ids' ids2' := by
  unfold nMappables
  rw [nSelected_congr mtids h1, nUnselected_congr mtids h1 h2]

theorem metaImagesRaw_congr (sf : StatFns) (mt : ImageTable)
    {ids ids' : List String} {ids2 ids2' : Option (List String)}
    (q prior : ℚ) (h1 : ids.toFinset = ids'.toFinset)
    (h2 : ids2.map List.toFinset = ids2'.map List.toFinset) :
    metaImagesRaw sf mt ids ids2 q prior
      = metaImagesRaw sf mt ids' ids2' q prior := by
  have hsel := selMask_congr mt.ids h1
  have hunsel := unselMask_congr mt.ids h1 h2
  have hnsel := nSelected_congr mt.ids h1
  have hnunsel := nUnselected_congr mt.ids h1 h2
  simp only [metaImagesRaw, nsaList, nuaList, pFVal, pAList, pAgFList,
    pAgUList, pFgAList, pAgFPriorList, pFgAPriorList, pv1List, sgn1List,
    z1List, z1FDRList, cellsList, pv2List, sgn2List, z2List, z2FDRList,
    nMappables, hsel, hunsel, hnsel, hnunsel]

/-- Claim C10: the analysis is invariant under duplication and
reordering of `ids` (and `ids2` when given): equal ID sets give equal
masks, equal counts, and an equal image dictionary; and an ID absent
from the dataset's study list is silently ignored (contributes nothing
to the mask or to `n_selected`). -/
theorem claim_C10 (sf : StatFns) (mt : ImageTable)
    (ids ids' : List String) (ids2 ids2' : Option (List String))
    (q prior : ℚ) (ms : PyNum)
    (h1 : ids.toFinset = ids'.toFinset)
    (h2 : ids2.map List.toFinset = ids2'.map List.toFinset) :
    selMask mt.ids ids = selMask mt.ids ids' ∧
    unselMask mt.ids ids ids2 = unselMask mt.ids ids' ids2' ∧
    nSelected mt.ids ids = nSelected mt.ids ids' ∧
    nUnselected mt.ids ids ids2 = nUnselected mt.ids ids' ids2' ∧
    nMappables mt.ids ids ids2 = nMappables mt.ids ids' ids2' ∧
    (∀ e : String, e ∉ mt.ids →
      selMask mt.ids (e :: ids) = selMask mt.ids ids ∧
      nSelected mt.ids (e :: ids) = nSelected mt.ids ids) ∧
    MetaAnalysis.images sf mt ids ids2 q prior ms
      = MetaAnalysis.images sf mt ids' ids2' q prior ms := by
  refine ⟨selMask_congr mt.ids h1, unselMask_congr mt.ids h1 h2,
    nSelected_congr mt.ids h1, nUnselected_congr mt.ids h1 h2,
    nMappables_congr mt.ids h1 h2, ?_, ?_⟩
  · intro e he
    constructor
    · unfold selMask
      refine List.map_congr_left ?_
      intro s hsmem
      have hne : s ≠ e := fun heq => he (heq ▸ hsmem)
      simp [List.mem_cons, hne]
    · unfold nSelected
      rw [List.toFinset_cons, Finset.inter_comm,
        Finset.insert_inter_of_not_mem (by simp [he]), Finset.inter_comm]
  · unfold MetaAnalysis.images
    rw [metaImagesRaw_congr sf mt q prior h1 h2, nMappables_congr mt.ids h1 h2]

/-- Witness for C10: `["b", "a", "a"]` and `["a", "b"]` contain the
same identifiers, so the two runs coincide. -/
theorem claim_C10_witness :
    (["b", "a", "a"] : List String).toFinset = (["a", "b"] : List String).toFinset ∧
    MetaAnalysis.images sfTriv mtTwo ["b", "a", "a"] none (1/100) (1/2)
        (PyNum.pint 1)
      = MetaAnalysis.images sfTriv mtTwo ["a", "b"] none (1/100) (1/2)
        (PyNum.pint 1) :=
  ⟨by decide,
   (claim_C10 sfTriv mtTwo ["b", "a", "a"] ["a", "b"] none none (1/100)
     (1/2) (PyNum.pint 1) (by decide) rfl).2.2.2.2.2.2⟩
